import Mathlib

/-!
Shallow embedding of the computational content of the notebook
`IntegratedFriedmann.ipynb`: the Friedmann-equation derivative `aDot`, the
explicit first-order integrator `integrateFriedmann` (a forward and a
backward Euler loop merged into one time series), and the closed-form
pairwise density-equality helper `equalityAs`.

Python floats are modelled by real numbers; Python's `x ** y` on real
operands is `Real.rpow`.  Lists are Lean lists; reading `l[i]` is `List.getD`
(all accesses the claims are about happen in bounds), and `l[-1]` is
`List.getLastD` (the lists of the integrator are never empty).
-/

namespace IntegratedFriedmann

/-- The value accumulated in the local variable `Val` of `aDot` just before
the square root is taken: the loop `for i in range(len(Omegas))` adds
`Omegas[i] * a**(-3*(1+Ws[i]))`, the loop `for Omega in Omegas` accumulates
`Omega0`, and then `(1 - Omega0) / a**2` is added. -/
noncomputable def aDotVal (a : ℝ) (Omegas Ws : List ℝ) : ℝ :=
  ((List.range Omegas.length).foldl
      (fun v i => v + Omegas.getD i 0 * a ^ ((-3 : ℝ) * (1 + Ws.getD i 0))) 0)
    + (1 - Omegas.foldl (fun s o => s + o) 0) / a ^ 2

/-- The notebook's `aDot(a, Omegas, Ws)`: `Val = (Val)**0.5; Val *= a`. -/
noncomputable def aDot (a : ℝ) (Omegas Ws : List ℝ) : ℝ :=
  aDotVal a Omegas Ws ^ (0.5 : ℝ) * a

/-- Partial version of `aDot` recording where the Python expression
`Val ** 0.5` stops producing a real number: for a negative base and
fractional exponent, Python returns a complex number, so the real-valued
result is only available when `Val` is nonnegative. -/
noncomputable def aDotChecked (a : ℝ) (Omegas Ws : List ℝ) : Option ℝ :=
  if aDotVal a Omegas Ws < 0 then none else some (aDot a Omegas Ws)

/-- The Friedmann rate exactly as the specification phrases it:
`a * sqrt(sum_i Omegas[i] * a^(-3*(1+Ws[i])) + (1 - sum_i Omegas[i]) / a^2)`. -/
noncomputable def friedmannRate (a : ℝ) (Omegas Ws : List ℝ) : ℝ :=
  a * Real.sqrt
    ((List.zipWith (fun O w => O * a ^ ((-3 : ℝ) * (1 + w))) Omegas Ws).sum
      + (1 - Omegas.sum) / a ^ 2)

/-- The forward loop of `integrateFriedmann`, iterated `n` times on the pair
`(ForwardAs, ForwardTs)`: each iteration reads the last element of each list,
computes `currentaDot = aDot(ForwardAs[-1], Omegas, Ws)` and
`foredT = 0.01 * (ForwardAs[-1] / currentaDot)`, and appends
`ForwardAs[-1] + currentaDot * foredT` and `ForwardTs[-1] + foredT`. -/
noncomputable def forwardLoop (Omegas Ws : List ℝ) : ℕ → List ℝ × List ℝ → List ℝ × List ℝ
  | 0, st => st
  | n + 1, st =>
    let currentaDot := aDot (st.1.getLastD 0) Omegas Ws
    let foredT := 0.01 * (st.1.getLastD 0 / currentaDot)
    forwardLoop Omegas Ws n
      (st.1 ++ [st.1.getLastD 0 + currentaDot * foredT],
       st.2 ++ [st.2.getLastD 0 + foredT])

/-- The backward loop of `integrateFriedmann`: each iteration computes
`currentaDot = aDot(BackwardAs[-1], Omegas, Ws)` and
`backdT = 0.01 * (BackwardAs[-1] / currentaDot)`, and appends
`BackwardTs[-1] - backdT` and `BackwardAs[-1] - currentaDot * backdT`. -/
noncomputable def backwardLoop (Omegas Ws : List ℝ) : ℕ → List ℝ × List ℝ → List ℝ × List ℝ
  | 0, st => st
  | n + 1, st =>
    let currentaDot := aDot (st.1.getLastD 0) Omegas Ws
    let backdT := 0.01 * (st.1.getLastD 0 / currentaDot)
    backwardLoop Omegas Ws n
      (st.1 ++ [st.1.getLastD 0 - currentaDot * backdT],
       st.2 ++ [st.2.getLastD 0 - backdT])

/-- The notebook's `integrateFriedmann(Omegas, Ws, nT)`: run the forward and
the backward Euler loop for `nT` steps from `ForwardAs = BackwardAs = [1.]`,
`ForwardTs = BackwardTs = [0.]`, then collect.  The collection loop
`for i in range(1, len(BackwardTs)+1): Ts.append(BackwardTs[-i])` reads the
backward lists at the Python indices `-i`, that is at position `len - i`,
and the second loop appends the forward lists unchanged.  Returns `(Ts, As)`. -/
noncomputable def integrateFriedmann (Omegas Ws : List ℝ) (nT : ℕ) : List ℝ × List ℝ :=
  let fwd := forwardLoop Omegas Ws nT ([1], [0])
  let bwd := backwardLoop Omegas Ws nT ([1], [0])
  ((List.range' 1 bwd.2.length).map (fun i => bwd.2.getD (bwd.2.length - i) 0) ++ fwd.2,
   (List.range' 1 bwd.1.length).map (fun i => bwd.1.getD (bwd.1.length - i) 0) ++ fwd.1)

/-- The forward loop with the Python division-by-zero check made explicit:
`foredT = 0.01 * (ForwardAs[-1] / currentaDot)` raises `ZeroDivisionError`
when `currentaDot` is zero, modelled by returning `none`. -/
noncomputable def forwardLoopChecked (Omegas Ws : List ℝ) :
    ℕ → List ℝ × List ℝ → Option (List ℝ × List ℝ)
  | 0, st => some st
  | n + 1, st =>
    let currentaDot := aDot (st.1.getLastD 0) Omegas Ws
    if currentaDot = 0 then none
    else
      let foredT := 0.01 * (st.1.getLastD 0 / currentaDot)
      forwardLoopChecked Omegas Ws n
        (st.1 ++ [st.1.getLastD 0 + currentaDot * foredT],
         st.2 ++ [st.2.getLastD 0 + foredT])

/-- The backward loop with the Python division-by-zero check made explicit. -/
noncomputable def backwardLoopChecked (Omegas Ws : List ℝ) :
    ℕ → List ℝ × List ℝ → Option (List ℝ × List ℝ)
  | 0, st => some st
  | n + 1, st =>
    let currentaDot := aDot (st.1.getLastD 0) Omegas Ws
    if currentaDot = 0 then none
    else
      let backdT := 0.01 * (st.1.getLastD 0 / currentaDot)
      backwardLoopChecked Omegas Ws n
        (st.1 ++ [st.1.getLastD 0 - currentaDot * backdT],
         st.2 ++ [st.2.getLastD 0 - backdT])

/-- `integrateFriedmann` with the division-by-zero checks of both loops made
explicit; `none` models an uncaught `ZeroDivisionError`. -/
noncomputable def integrateFriedmannChecked (Omegas Ws : List ℝ) (nT : ℕ) :
    Option (List ℝ × List ℝ) :=
  (forwardLoopChecked Omegas Ws nT ([1], [0])).bind fun fwd =>
    (backwardLoopChecked Omegas Ws nT ([1], [0])).map fun bwd =>
      ((List.range' 1 bwd.2.length).map (fun i => bwd.2.getD (bwd.2.length - i) 0) ++ fwd.2,
       (List.range' 1 bwd.1.length).map (fun i => bwd.1.getD (bwd.1.length - i) 0) ++ fwd.1)

/-- The scale factor after `n` forward Euler steps, the closed recurrence the
forward loop of `integrateFriedmann` realizes. -/
noncomputable def foreA (Omegas Ws : List ℝ) : ℕ → ℝ
  | 0 => 1
  | n + 1 =>
    let a := foreA Omegas Ws n
    let d := aDot a Omegas Ws
    a + d * (0.01 * (a / d))

/-- The time after `n` forward Euler steps. -/
noncomputable def foreT (Omegas Ws : List ℝ) : ℕ → ℝ
  | 0 => 0
  | n + 1 =>
    foreT Omegas Ws n
      + 0.01 * (foreA Omegas Ws n / aDot (foreA Omegas Ws n) Omegas Ws)

/-- The scale factor after `n` backward Euler steps. -/
noncomputable def backA (Omegas Ws : List ℝ) : ℕ → ℝ
  | 0 => 1
  | n + 1 =>
    let a := backA Omegas Ws n
    let d := aDot a Omegas Ws
    a - d * (0.01 * (a / d))

/-- The time after `n` backward Euler steps. -/
noncomputable def backT (Omegas Ws : List ℝ) : ℕ → ℝ
  | 0 => 0
  | n + 1 =>
    backT Omegas Ws n
      - 0.01 * (backA Omegas Ws n / aDot (backA Omegas Ws n) Omegas Ws)

/-- The index pairs visited by the double loop of `equalityAs`:
`for i in range(len(Omegas)): for j in range(i+1, len(Omegas))`, in
iteration order. -/
def pairsList (n : ℕ) : List (ℕ × ℕ) :=
  (List.range n).flatMap
    (fun i => (List.range' (i + 1) (n - (i + 1))).map (fun j => (i, j)))

/-- The notebook's `equalityAs(Omegas, Ws, Names)`: for each pair `i < j` it
appends the label `Names[i] + ', ' + Names[j]` and the scale factor
`np.exp(np.log(Omegas[i] / Omegas[j]) / (-3 * (Ws[j] - Ws[i])))`, and
returns `(As, labels)`. -/
noncomputable def equalityAs (Omegas Ws : List ℝ) (Names : List String) :
    List ℝ × List String :=
  ((pairsList Omegas.length).map (fun p =>
      Real.exp (Real.log (Omegas.getD p.1 0 / Omegas.getD p.2 0)
        / (-3 * (Ws.getD p.2 0 - Ws.getD p.1 0)))),
   (pairsList Omegas.length).map (fun p =>
      Names.getD p.1 "" ++ ", " ++ Names.getD p.2 ""))

theorem foldl_add_eq_sum_map (g : ℕ → ℝ) (l : List ℕ) :
    l.foldl (fun v i => v + g i) 0 = (l.map g).sum := by
  rw [List.sum_eq_foldl, List.foldl_map]

theorem map_range_getD_eq_zipWith (f : ℝ → ℝ → ℝ) (xs ys : List ℝ)
    (h : xs.length = ys.length) :
    (List.range xs.length).map (fun i => f (xs.getD i 0) (ys.getD i 0))
      = List.zipWith f xs ys := by
  induction xs generalizing ys with
  | nil => simp
  | cons x xs ih =>
    cases ys with
    | nil => simp at h
    | cons y ys =>
      simp only [List.length_cons, List.range_succ_eq_map, List.map_cons,
        List.map_map, List.zipWith_cons_cons]
      congr 1
      have h' : xs.length = ys.length := by simpa using h
      rw [← ih ys h']
      apply List.map_congr_left
      intro i _
      simp [Function.comp, List.getD]

theorem map_range_getD_mul (a : ℝ) (xs ys : List ℝ) (h : xs.length = ys.length) :
    (List.range xs.length).map
        (fun i => xs.getD i 0 * a ^ ((-3 : ℝ) * (1 + ys.getD i 0)))
      = List.zipWith (fun O w => O * a ^ ((-3 : ℝ) * (1 + w))) xs ys :=
  map_range_getD_eq_zipWith (fun O w => O * a ^ ((-3 : ℝ) * (1 + w))) xs ys h

theorem aDotVal_eq (a : ℝ) (Omegas Ws : List ℝ) (h : Omegas.length = Ws.length) :
    aDotVal a Omegas Ws
      = (List.zipWith (fun O w => O * a ^ ((-3 : ℝ) * (1 + w))) Omegas Ws).sum
        + (1 - Omegas.sum) / a ^ 2 := by
  unfold aDotVal
  rw [foldl_add_eq_sum_map, map_range_getD_mul a Omegas Ws h,
    show Omegas.sum = Omegas.foldl (fun s o => s + o) 0 from List.sum_eq_foldl,
    List.sum_eq_foldl]

/-- C1: for every scale factor `a > 0` and equal-length lists `Omegas`, `Ws`,
`aDot` returns `a * sqrt(sum_i Omegas[i] * a^(-3*(1+Ws[i])) + (1 - sum_i
Omegas[i]) / a^2)`, the Friedmann-equation rate of change of the scale factor
with a curvature term built from one minus the total density parameter. -/
theorem aDot_eq_friedmannRate (a : ℝ) (Omegas Ws : List ℝ)
    (ha : 0 < a) (h : Omegas.length = Ws.length) :
    aDot a Omegas Ws = friedmannRate a Omegas Ws := by
  unfold aDot friedmannRate
  rw [aDotVal_eq a Omegas Ws h, Real.sqrt_eq_rpow]
  norm_num [mul_comm]

/-- Witness for C1 at `a = 1`, `Omegas = [1]`, `Ws = [0]`. -/
theorem aDot_eq_friedmannRate_witness :
    aDot 1 [1] [0] = friedmannRate 1 [1] [0] :=
  aDot_eq_friedmannRate 1 [1] [0] (by norm_num) rfl

theorem getLastD_map_range (f : ℕ → ℝ) (k : ℕ) :
    ((List.range (k + 1)).map f).getLastD 0 = f k := by
  rw [List.range_succ, List.map_append]
  simp

theorem map_range_concat (f : ℕ → ℝ) (k : ℕ) :
    (List.range (k + 1 + 1)).map f = (List.range (k + 1)).map f ++ [f (k + 1)] := by
  rw [List.range_succ (k + 1), List.map_append]
  rfl

theorem foreA_concat (Omegas Ws : List ℝ) (k : ℕ) :
    (List.range (k + 1)).map (foreA Omegas Ws)
        ++ [foreA Omegas Ws k + aDot (foreA Omegas Ws k) Omegas Ws
              * (0.01 * (foreA Omegas Ws k / aDot (foreA Omegas Ws k) Omegas Ws))]
      = (List.range (k + 1 + 1)).map (foreA Omegas Ws) := by
  rw [map_range_concat]
  congr 2

theorem foreT_concat (Omegas Ws : List ℝ) (k : ℕ) :
    (List.range (k + 1)).map (foreT Omegas Ws)
        ++ [foreT Omegas Ws k
              + 0.01 * (foreA Omegas Ws k / aDot (foreA Omegas Ws k) Omegas Ws)]
      = (List.range (k + 1 + 1)).map (foreT Omegas Ws) := by
  rw [map_range_concat]
  congr 2

theorem backA_concat (Omegas Ws : List ℝ) (k : ℕ) :
    (List.range (k + 1)).map (backA Omegas Ws)
        ++ [backA Omegas Ws k - aDot (backA Omegas Ws k) Omegas Ws
              * (0.01 * (backA Omegas Ws k / aDot (backA Omegas Ws k) Omegas Ws))]
      = (List.range (k + 1 + 1)).map (backA Omegas Ws) := by
  rw [map_range_concat]
  congr 2

theorem backT_concat (Omegas Ws : List ℝ) (k : ℕ) :
    (List.range (k + 1)).map (backT Omegas Ws)
        ++ [backT Omegas Ws k
              - 0.01 * (backA Omegas Ws k / aDot (backA Omegas Ws k) Omegas Ws)]
      = (List.range (k + 1 + 1)).map (backT Omegas Ws) := by
  rw [map_range_concat]
  congr 2

theorem forwardLoop_map_range (Omegas Ws : List ℝ) (n k : ℕ) :
    forwardLoop Omegas Ws n
        ((List.range (k + 1)).map (foreA Omegas Ws),
         (List.range (k + 1)).map (foreT Omegas Ws))
      = ((List.range (k + n + 1)).map (foreA Omegas Ws),
         (List.range (k + n + 1)).map (foreT Omegas Ws)) := by
  induction n generalizing k with
  | zero => simp [forwardLoop]
  | succ n ih =>
    rw [forwardLoop]
    simp only [getLastD_map_range]
    rw [foreA_concat, foreT_concat, ih (k + 1)]
    have e : k + 1 + n + 1 = k + (n + 1) + 1 := by omega
    rw [e]

theorem backwardLoop_map_range (Omegas Ws : List ℝ) (n k : ℕ) :
    backwardLoop Omegas Ws n
        ((List.range (k + 1)).map (backA Omegas Ws),
         (List.range (k + 1)).map (backT Omegas Ws))
      = ((List.range (k + n + 1)).map (backA Omegas Ws),
         (List.range (k + n + 1)).map (backT Omegas Ws)) := by
  induction n generalizing k with
  | zero => simp [backwardLoop]
  | succ n ih =>
    rw [backwardLoop]
    simp only [getLastD_map_range]
    rw [backA_concat, backT_concat, ih (k + 1)]
    have e : k + 1 + n + 1 = k + (n + 1) + 1 := by omega
    rw [e]

theorem forwardLoop_closed (Omegas Ws : List ℝ) (nT : ℕ) :
    forwardLoop Omegas Ws nT ([1], [0])
      = ((List.range (nT + 1)).map (foreA Omegas Ws),
         (List.range (nT + 1)).map (foreT Omegas Ws)) := by
  have h0 : (([1], [0]) : List ℝ × List ℝ)
      = ((List.range 1).map (foreA Omegas Ws), (List.range 1).map (foreT Omegas Ws)) := by
    have hr : List.range 1 = [0] := rfl
    simp [hr, foreA, foreT]
  rw [h0, forwardLoop_map_range]
  have e : 0 + nT + 1 = nT + 1 := by omega
  rw [e]

theorem backwardLoop_closed (Omegas Ws : List ℝ) (nT : ℕ) :
    backwardLoop Omegas Ws nT ([1], [0])
      = ((List.range (nT + 1)).map (backA Omegas Ws),
         (List.range (nT + 1)).map (backT Omegas Ws)) := by
  have h0 : (([1], [0]) : List ℝ × List ℝ)
      = ((List.range 1).map (backA Omegas Ws), (List.range 1).map (backT Omegas Ws)) := by
    have hr : List.range 1 = [0] := rfl
    simp [hr, backA, backT]
  rw [h0, backwardLoop_map_range]
  have e : 0 + nT + 1 = nT + 1 := by omega
  rw [e]

theorem range1_map_getD_eq_reverse (l : List ℝ) :
    (List.range' 1 l.length).map (fun i => l.getD (l.length - i) 0) = l.reverse := by
  apply List.ext_getElem
  · simp
  · intro n h1 h2
    have hn : n < l.length := by simpa using h2
    simp only [List.getElem_map, List.getElem_range', List.getElem_reverse]
    rw [show l.length - (1 + 1 * n) = l.length - 1 - n from by omega]
    exact List.getD_eq_getElem l 0 (by omega)

theorem integrateFriedmann_closed (Omegas Ws : List ℝ) (nT : ℕ) :
    integrateFriedmann Omegas Ws nT
      = (((List.range (nT + 1)).map (backT Omegas Ws)).reverse
           ++ (List.range (nT + 1)).map (foreT Omegas Ws),
         ((List.range (nT + 1)).map (backA Omegas Ws)).reverse
           ++ (List.range (nT + 1)).map (foreA Omegas Ws)) := by
  unfold integrateFriedmann
  rw [forwardLoop_closed, backwardLoop_closed]
  simp only []
  rw [range1_map_getD_eq_reverse, range1_map_getD_eq_reverse]

theorem getD_map_range (f : ℕ → ℝ) (m k : ℕ) (h : k < m) :
    ((List.range m).map f).getD k 0 = f k := by
  rw [List.getD_eq_getElem _ 0 (by simpa using h)]
  simp

/-- C2: for every input and every step index `n < nT`, `integrateFriedmann`
advances by the explicit first-order Euler update: on the forward pass
`ForwardAs[n+1] = ForwardAs[n] + aDot(ForwardAs[n]) * dT` and
`ForwardTs[n+1] = ForwardTs[n] + dT`, and on the backward pass
`BackwardAs[n+1] = BackwardAs[n] - aDot(BackwardAs[n]) * dT` and
`BackwardTs[n+1] = BackwardTs[n] - dT`, where `dT = 0.01 * (a / aDot a)` is
computed at the current point; the step functions read nothing but the last
element of each list. -/
theorem integrateFriedmann_euler_step (Omegas Ws : List ℝ) (nT n : ℕ) (hn : n < nT) :
    (forwardLoop Omegas Ws nT ([1], [0])).1.getD (n + 1) 0
        = (forwardLoop Omegas Ws nT ([1], [0])).1.getD n 0
          + aDot ((forwardLoop Omegas Ws nT ([1], [0])).1.getD n 0) Omegas Ws
            * (0.01 * ((forwardLoop Omegas Ws nT ([1], [0])).1.getD n 0
                / aDot ((forwardLoop Omegas Ws nT ([1], [0])).1.getD n 0) Omegas Ws))
    ∧ (forwardLoop Omegas Ws nT ([1], [0])).2.getD (n + 1) 0
        = (forwardLoop Omegas Ws nT ([1], [0])).2.getD n 0
          + 0.01 * ((forwardLoop Omegas Ws nT ([1], [0])).1.getD n 0
              / aDot ((forwardLoop Omegas Ws nT ([1], [0])).1.getD n 0) Omegas Ws)
    ∧ (backwardLoop Omegas Ws nT ([1], [0])).1.getD (n + 1) 0
        = (backwardLoop Omegas Ws nT ([1], [0])).1.getD n 0
          - aDot ((backwardLoop Omegas Ws nT ([1], [0])).1.getD n 0) Omegas Ws
            * (0.01 * ((backwardLoop Omegas Ws nT ([1], [0])).1.getD n 0
                / aDot ((backwardLoop Omegas Ws nT ([1], [0])).1.getD n 0) Omegas Ws))
    ∧ (backwardLoop Omegas Ws nT ([1], [0])).2.getD (n + 1) 0
        = (backwardLoop Omegas Ws nT ([1], [0])).2.getD n 0
          - 0.01 * ((backwardLoop Omegas Ws nT ([1], [0])).1.getD n 0
              / aDot ((backwardLoop Omegas Ws nT ([1], [0])).1.getD n 0) Omegas Ws) := by
  rw [forwardLoop_closed, backwardLoop_closed]
  have e1 : ∀ f : ℕ → ℝ, ((List.range (nT + 1)).map f).getD (n + 1) 0 = f (n + 1) :=
    fun f => getD_map_range f (nT + 1) (n + 1) (by omega)
  have e0 : ∀ f : ℕ → ℝ, ((List.range (nT + 1)).map f).getD n 0 = f n :=
    fun f => getD_map_range f (nT + 1) n (by omega)
  simp only [e1, e0]
  exact ⟨by simp [foreA], by simp [foreT], by simp [backA], by simp [backT]⟩

/-- Witness for C2 at `Omegas = [1]`, `Ws = [-1]`, `nT = 1`, `n = 0`. -/
theorem integrateFriedmann_euler_step_witness :
    (forwardLoop [1] [-1] 1 ([1], [0])).1.getD 1 0
        = (forwardLoop [1] [-1] 1 ([1], [0])).1.getD 0 0
          + aDot ((forwardLoop [1] [-1] 1 ([1], [0])).1.getD 0 0) [1] [-1]
            * (0.01 * ((forwardLoop [1] [-1] 1 ([1], [0])).1.getD 0 0
                / aDot ((forwardLoop [1] [-1] 1 ([1], [0])).1.getD 0 0) [1] [-1]))
    ∧ (forwardLoop [1] [-1] 1 ([1], [0])).2.getD 1 0
        = (forwardLoop [1] [-1] 1 ([1], [0])).2.getD 0 0
          + 0.01 * ((forwardLoop [1] [-1] 1 ([1], [0])).1.getD 0 0
              / aDot ((forwardLoop [1] [-1] 1 ([1], [0])).1.getD 0 0) [1] [-1])
    ∧ (backwardLoop [1] [-1] 1 ([1], [0])).1.getD 1 0
        = (backwardLoop [1] [-1] 1 ([1], [0])).1.getD 0 0
          - aDot ((backwardLoop [1] [-1] 1 ([1], [0])).1.getD 0 0) [1] [-1]
            * (0.01 * ((backwardLoop [1] [-1] 1 ([1], [0])).1.getD 0 0
                / aDot ((backwardLoop [1] [-1] 1 ([1], [0])).1.getD 0 0) [1] [-1]))
    ∧ (backwardLoop [1] [-1] 1 ([1], [0])).2.getD 1 0
        = (backwardLoop [1] [-1] 1 ([1], [0])).2.getD 0 0
          - 0.01 * ((backwardLoop [1] [-1] 1 ([1], [0])).1.getD 0 0
              / aDot ((backwardLoop [1] [-1] 1 ([1], [0])).1.getD 0 0) [1] [-1]) :=
  integrateFriedmann_euler_step [1] [-1] 1 0 (by decide)

/-- C3: for every input, both passes start from the present-day anchor:
the first element of `ForwardAs` and `BackwardAs` is exactly `1` and the
first element of `ForwardTs` and `BackwardTs` is exactly `0`. -/
theorem integrateFriedmann_anchor (Omegas Ws : List ℝ) (nT : ℕ) :
    (forwardLoop Omegas Ws nT ([1], [0])).1.getD 0 0 = 1
    ∧ (forwardLoop Omegas Ws nT ([1], [0])).2.getD 0 0 = 0
    ∧ (backwardLoop Omegas Ws nT ([1], [0])).1.getD 0 0 = 1
    ∧ (backwardLoop Omegas Ws nT ([1], [0])).2.getD 0 0 = 0 := by
  rw [forwardLoop_closed, backwardLoop_closed]
  have e0 : ∀ f : ℕ → ℝ, ((List.range (nT + 1)).map f).getD 0 0 = f 0 :=
    fun f => getD_map_range f (nT + 1) 0 (by omega)
  simp only [e0]
  exact ⟨rfl, rfl, rfl, rfl⟩

/-- C4: at every step of both passes the realized time step is adaptive and
Hubble-time-scaled: the time advanced between consecutive samples equals
`0.01 * (a / aDot(a, Omegas, Ws))` at the current scale factor of that pass,
recomputed at every iteration. -/
theorem integrateFriedmann_adaptive_step (Omegas Ws : List ℝ) (nT n : ℕ) (hn : n < nT) :
    (forwardLoop Omegas Ws nT ([1], [0])).2.getD (n + 1) 0
        - (forwardLoop Omegas Ws nT ([1], [0])).2.getD n 0
      = 0.01 * ((forwardLoop Omegas Ws nT ([1], [0])).1.getD n 0
          / aDot ((forwardLoop Omegas Ws nT ([1], [0])).1.getD n 0) Omegas Ws)
    ∧ (backwardLoop Omegas Ws nT ([1], [0])).2.getD n 0
        - (backwardLoop Omegas Ws nT ([1], [0])).2.getD (n + 1) 0
      = 0.01 * ((backwardLoop Omegas Ws nT ([1], [0])).1.getD n 0
          / aDot ((backwardLoop Omegas Ws nT ([1], [0])).1.getD n 0) Omegas Ws) := by
  rw [forwardLoop_closed, backwardLoop_closed]
  have e1 : ∀ f : ℕ → ℝ, ((List.range (nT + 1)).map f).getD (n + 1) 0 = f (n + 1) :=
    fun f => getD_map_range f (nT + 1) (n + 1) (by omega)
  have e0 : ∀ f : ℕ → ℝ, ((List.range (nT + 1)).map f).getD n 0 = f n :=
    fun f => getD_map_range f (nT + 1) n (by omega)
  simp only [e1, e0]
  constructor
  · simp [foreT]
  · simp [backT]

/-- Witness for C4 at `Omegas = [1]`, `Ws = [-1]`, `nT = 1`, `n = 0`. -/
theorem integrateFriedmann_adaptive_step_witness :
    (forwardLoop [1] [-1] 1 ([1], [0])).2.getD 1 0
        - (forwardLoop [1] [-1] 1 ([1], [0])).2.getD 0 0
      = 0.01 * ((forwardLoop [1] [-1] 1 ([1], [0])).1.getD 0 0
          / aDot ((forwardLoop [1] [-1] 1 ([1], [0])).1.getD 0 0) [1] [-1])
    ∧ (backwardLoop [1] [-1] 1 ([1], [0])).2.getD 0 0
        - (backwardLoop [1] [-1] 1 ([1], [0])).2.getD 1 0
      = 0.01 * ((backwardLoop [1] [-1] 1 ([1], [0])).1.getD 0 0
          / aDot ((backwardLoop [1] [-1] 1 ([1], [0])).1.getD 0 0) [1] [-1]) :=
  integrateFriedmann_adaptive_step [1] [-1] 1 0 (by decide)

theorem aDotVal_deSitter (a : ℝ) : aDotVal a [1] [-1] = 1 := by
  have hr : List.range (1 : ℕ) = [0] := rfl
  unfold aDotVal
  simp only [List.length_cons, List.length_nil, hr, List.foldl_cons, List.foldl_nil,
    List.getD_cons_zero]
  norm_num

theorem aDot_deSitter (a : ℝ) : aDot a [1] [-1] = a := by
  unfold aDot
  rw [aDotVal_deSitter, Real.one_rpow, one_mul]

theorem forwardLoopChecked_map_range (Omegas Ws : List ℝ) (n k : ℕ)
    (h : ∀ m, k ≤ m → m < k + n → aDot (foreA Omegas Ws m) Omegas Ws ≠ 0) :
    forwardLoopChecked Omegas Ws n
        ((List.range (k + 1)).map (foreA Omegas Ws),
         (List.range (k + 1)).map (foreT Omegas Ws))
      = some (forwardLoop Omegas Ws n
        ((List.range (k + 1)).map (foreA Omegas Ws),
         (List.range (k + 1)).map (foreT Omegas Ws))) := by
  induction n generalizing k with
  | zero => simp [forwardLoopChecked, forwardLoop]
  | succ n ih =>
    rw [forwardLoopChecked, forwardLoop]
    simp only [getLastD_map_range]
    rw [if_neg (h k (Nat.le_refl k) (by omega))]
    rw [foreA_concat, foreT_concat]
    exact ih (k + 1) (fun m h1 h2 => h m (by omega) (by omega))

theorem backwardLoopChecked_map_range (Omegas Ws : List ℝ) (n k : ℕ)
    (h : ∀ m, k ≤ m → m < k + n → aDot (backA Omegas Ws m) Omegas Ws ≠ 0) :
    backwardLoopChecked Omegas Ws n
        ((List.range (k + 1)).map (backA Omegas Ws),
         (List.range (k + 1)).map (backT Omegas Ws))
      = some (backwardLoop Omegas Ws n
        ((List.range (k + 1)).map (backA Omegas Ws),
         (List.range (k + 1)).map (backT Omegas Ws))) := by
  induction n generalizing k with
  | zero => simp [backwardLoopChecked, backwardLoop]
  | succ n ih =>
    rw [backwardLoopChecked, backwardLoop]
    simp only [getLastD_map_range]
    rw [if_neg (h k (Nat.le_refl k) (by omega))]
    rw [backA_concat, backT_concat]
    exact ih (k + 1) (fun m h1 h2 => h m (by omega) (by omega))

theorem forwardLoopChecked_closed (Omegas Ws : List ℝ) (nT : ℕ)
    (h : ∀ m, m < nT → aDot (foreA Omegas Ws m) Omegas Ws ≠ 0) :
    forwardLoopChecked Omegas Ws nT ([1], [0])
      = some (forwardLoop Omegas Ws nT ([1], [0])) := by
  have h0 : (([1], [0]) : List ℝ × List ℝ)
      = ((List.range 1).map (foreA Omegas Ws), (List.range 1).map (foreT Omegas Ws)) := by
    have hr : List.range 1 = [0] := rfl
    simp [hr, foreA, foreT]
  rw [h0]
  exact forwardLoopChecked_map_range Omegas Ws nT 0 (fun m h1 h2 => h m (by omega))

theorem backwardLoopChecked_closed (Omegas Ws : List ℝ) (nT : ℕ)
    (h : ∀ m, m < nT → aDot (backA Omegas Ws m) Omegas Ws ≠ 0) :
    backwardLoopChecked Omegas Ws nT ([1], [0])
      = some (backwardLoop Omegas Ws nT ([1], [0])) := by
  have h0 : (([1], [0]) : List ℝ × List ℝ)
      = ((List.range 1).map (backA Omegas Ws), (List.range 1).map (backT Omegas Ws)) := by
    have hr : List.range 1 = [0] := rfl
    simp [hr, backA, backT]
  rw [h0]
  exact backwardLoopChecked_map_range Omegas Ws nT 0 (fun m h1 h2 => h m (by omega))

/-- C9: the step-size computation divides by the current derivative with no
zero guard; under the precondition that `aDot` is nonzero at every scale
factor visited during the `nT` forward and `nT` backward steps, the
division-by-zero branch is unreachable and the checked integrator returns
exactly the unchecked total `integrateFriedmann`. -/
theorem integrateFriedmannChecked_eq (Omegas Ws : List ℝ) (nT : ℕ)
    (hf : ∀ m, m < nT → aDot (foreA Omegas Ws m) Omegas Ws ≠ 0)
    (hb : ∀ m, m < nT → aDot (backA Omegas Ws m) Omegas Ws ≠ 0) :
    integrateFriedmannChecked Omegas Ws nT = some (integrateFriedmann Omegas Ws nT) := by
  unfold integrateFriedmannChecked integrateFriedmann
  rw [forwardLoopChecked_closed Omegas Ws nT hf, backwardLoopChecked_closed Omegas Ws nT hb]
  rfl

/-- Witness for C9 at `Omegas = [1]`, `Ws = [-1]`, `nT = 1`. -/
theorem integrateFriedmannChecked_eq_witness :
    integrateFriedmannChecked [1] [-1] 1 = some (integrateFriedmann [1] [-1] 1) := by
  apply integrateFriedmannChecked_eq
  · intro m hm
    have hm0 : m = 0 := by omega
    rw [hm0]
    show aDot (foreA [1] [-1] 0) [1] [-1] ≠ 0
    rw [show foreA [1] [-1] 0 = 1 from rfl, aDot_deSitter]
    norm_num
  · intro m hm
    have hm0 : m = 0 := by omega
    rw [hm0]
    show aDot (backA [1] [-1] 0) [1] [-1] ≠ 0
    rw [show backA [1] [-1] 0 = 1 from rfl, aDot_deSitter]
    norm_num

theorem seam_left (f g : ℕ → ℝ) (m : ℕ) :
    (((List.range (m + 1)).map f).reverse ++ (List.range (m + 1)).map g).getD m 0
      = f 0 := by
  rw [List.getD_eq_getElem _ 0 (by simp; omega)]
  rw [List.getElem_append_left (by simp)]
  rw [List.getElem_reverse]
  simp

theorem seam_right (f g : ℕ → ℝ) (m : ℕ) :
    (((List.range (m + 1)).map f).reverse ++ (List.range (m + 1)).map g).getD (m + 1) 0
      = g 0 := by
  rw [List.getD_eq_getElem _ 0 (by simp)]
  rw [List.getElem_append_right (by simp)]
  simp

theorem foreA_step (Omegas Ws : List ℝ) (n : ℕ)
    (h : aDot (foreA Omegas Ws n) Omegas Ws ≠ 0) :
    foreA Omegas Ws (n + 1) = foreA Omegas Ws n + 0.01 * foreA Omegas Ws n := by
  show foreA Omegas Ws n
      + aDot (foreA Omegas Ws n) Omegas Ws
        * (0.01 * (foreA Omegas Ws n / aDot (foreA Omegas Ws n) Omegas Ws))
    = foreA Omegas Ws n + 0.01 * foreA Omegas Ws n
  field_simp

theorem backA_step (Omegas Ws : List ℝ) (n : ℕ)
    (h : aDot (backA Omegas Ws n) Omegas Ws ≠ 0) :
    backA Omegas Ws (n + 1) = backA Omegas Ws n - 0.01 * backA Omegas Ws n := by
  show backA Omegas Ws n
      - aDot (backA Omegas Ws n) Omegas Ws
        * (0.01 * (backA Omegas Ws n / aDot (backA Omegas Ws n) Omegas Ws))
    = backA Omegas Ws n - 0.01 * backA Omegas Ws n
  field_simp

theorem foreA_pos (Omegas Ws : List ℝ) (nT : ℕ)
    (hf : ∀ m, m ≤ nT → 0 < aDot (foreA Omegas Ws m) Omegas Ws) :
    ∀ k, k ≤ nT → 0 < foreA Omegas Ws k := by
  intro k
  induction k with
  | zero =>
    intro _
    norm_num [foreA]
  | succ k ih =>
    intro hk
    have hk' : k ≤ nT := by omega
    have h1 := ih hk'
    rw [foreA_step Omegas Ws k (ne_of_gt (hf k hk'))]
    linarith

theorem backA_pos (Omegas Ws : List ℝ) (nT : ℕ)
    (hb : ∀ m, m ≤ nT → 0 < aDot (backA Omegas Ws m) Omegas Ws) :
    ∀ k, k ≤ nT → 0 < backA Omegas Ws k := by
  intro k
  induction k with
  | zero =>
    intro _
    norm_num [backA]
  | succ k ih =>
    intro hk
    have hk' : k ≤ nT := by omega
    have h1 := ih hk'
    rw [backA_step Omegas Ws k (ne_of_gt (hb k hk'))]
    linarith

theorem foreA_mono (Omegas Ws : List ℝ) (nT : ℕ)
    (hf : ∀ m, m ≤ nT → 0 < aDot (foreA Omegas Ws m) Omegas Ws) :
    ∀ y, y ≤ nT → ∀ x, x ≤ y → foreA Omegas Ws x ≤ foreA Omegas Ws y := by
  intro y
  induction y with
  | zero =>
    intro _ x hx
    have hx0 : x = 0 := by omega
    rw [hx0]
  | succ y ih =>
    intro hy x hx
    rcases Nat.eq_or_lt_of_le hx with he | hlt
    · exact le_of_eq (by rw [he])
    · have h1 : foreA Omegas Ws x ≤ foreA Omegas Ws y := ih (by omega) x (by omega)
      have h2 : 0 < foreA Omegas Ws y := foreA_pos Omegas Ws nT hf y (by omega)
      rw [foreA_step Omegas Ws y (ne_of_gt (hf y (by omega)))]
      linarith

theorem backA_anti (Omegas Ws : List ℝ) (nT : ℕ)
    (hb : ∀ m, m ≤ nT → 0 < aDot (backA Omegas Ws m) Omegas Ws) :
    ∀ y, y ≤ nT → ∀ x, x ≤ y → backA Omegas Ws y ≤ backA Omegas Ws x := by
  intro y
  induction y with
  | zero =>
    intro _ x hx
    have hx0 : x = 0 := by omega
    rw [hx0]
  | succ y ih =>
    intro hy x hx
    rcases Nat.eq_or_lt_of_le hx with he | hlt
    · exact le_of_eq (by rw [he])
    · have h1 : backA Omegas Ws y ≤ backA Omegas Ws x := ih (by omega) x (by omega)
      have h2 : 0 < backA Omegas Ws y := backA_pos Omegas Ws nT hb y (by omega)
      rw [backA_step Omegas Ws y (ne_of_gt (hb y (by omega)))]
      linarith

theorem foreT_mono (Omegas Ws : List ℝ) (nT : ℕ)
    (hf : ∀ m, m ≤ nT → 0 < aDot (foreA Omegas Ws m) Omegas Ws) :
    ∀ y, y ≤ nT → ∀ x, x ≤ y → foreT Omegas Ws x ≤ foreT Omegas Ws y := by
  intro y
  induction y with
  | zero =>
    intro _ x hx
    have hx0 : x = 0 := by omega
    rw [hx0]
  | succ y ih =>
    intro hy x hx
    rcases Nat.eq_or_lt_of_le hx with he | hlt
    · exact le_of_eq (by rw [he])
    · have h1 : foreT Omegas Ws x ≤ foreT Omegas Ws y := ih (by omega) x (by omega)
      have h2 : 0 < foreA Omegas Ws y := foreA_pos Omegas Ws nT hf y (by omega)
      have h3 : 0 < aDot (foreA Omegas Ws y) Omegas Ws := hf y (by omega)
      have h4 : 0 < foreA Omegas Ws y / aDot (foreA Omegas Ws y) Omegas Ws :=
        div_pos h2 h3
      have h5 : foreT Omegas Ws (y + 1)
          = foreT Omegas Ws y
            + 0.01 * (foreA Omegas Ws y / aDot (foreA Omegas Ws y) Omegas Ws) := rfl
      rw [h5]
      nlinarith

theorem backT_anti (Omegas Ws : List ℝ) (nT : ℕ)
    (hb : ∀ m, m ≤ nT → 0 < aDot (backA Omegas Ws m) Omegas Ws) :
    ∀ y, y ≤ nT → ∀ x, x ≤ y → backT Omegas Ws y ≤ backT Omegas Ws x := by
  intro y
  induction y with
  | zero =>
    intro _ x hx
    have hx0 : x = 0 := by omega
    rw [hx0]
  | succ y ih =>
    intro hy x hx
    rcases Nat.eq_or_lt_of_le hx with he | hlt
    · exact le_of_eq (by rw [he])
    · have h1 : backT Omegas Ws y ≤ backT Omegas Ws x := ih (by omega) x (by omega)
      have h2 : 0 < backA Omegas Ws y := backA_pos Omegas Ws nT hb y (by omega)
      have h3 : 0 < aDot (backA Omegas Ws y) Omegas Ws := hb y (by omega)
      have h4 : 0 < backA Omegas Ws y / aDot (backA Omegas Ws y) Omegas Ws :=
        div_pos h2 h3
      have h5 : backT Omegas Ws (y + 1)
          = backT Omegas Ws y
            - 0.01 * (backA Omegas Ws y / aDot (backA Omegas Ws y) Omegas Ws) := rfl
      rw [h5]
      nlinarith

/-- C6: the pair `(Ts, As)` returned by `integrateFriedmann` is the backward
series in reverse order concatenated with the forward series; and whenever
`aDot` is strictly positive at every visited scale factor, the returned `Ts`
and `As` lists are sorted in nondecreasing order. -/
theorem integrateFriedmann_merge_sorted (Omegas Ws : List ℝ) (nT : ℕ) :
    (integrateFriedmann Omegas Ws nT).1
        = (backwardLoop Omegas Ws nT ([1], [0])).2.reverse
          ++ (forwardLoop Omegas Ws nT ([1], [0])).2
    ∧ (integrateFriedmann Omegas Ws nT).2
        = (backwardLoop Omegas Ws nT ([1], [0])).1.reverse
          ++ (forwardLoop Omegas Ws nT ([1], [0])).1
    ∧ ((∀ x ∈ (integrateFriedmann Omegas Ws nT).2, 0 < aDot x Omegas Ws) →
        List.Sorted (· ≤ ·) (integrateFriedmann Omegas Ws nT).1
        ∧ List.Sorted (· ≤ ·) (integrateFriedmann Omegas Ws nT).2) := by
  have hout := integrateFriedmann_closed Omegas Ws nT
  refine ⟨by rw [hout, forwardLoop_closed, backwardLoop_closed],
    by rw [hout, forwardLoop_closed, backwardLoop_closed], ?_⟩
  intro hd
  have hf : ∀ m, m ≤ nT → 0 < aDot (foreA Omegas Ws m) Omegas Ws := by
    intro m hm
    apply hd
    rw [hout]
    exact List.mem_append_right _
      (List.mem_map.mpr ⟨m, List.mem_range.mpr (by omega), rfl⟩)
  have hb : ∀ m, m ≤ nT → 0 < aDot (backA Omegas Ws m) Omegas Ws := by
    intro m hm
    apply hd
    rw [hout]
    exact List.mem_append_left _
      (List.mem_reverse.mpr (List.mem_map.mpr ⟨m, List.mem_range.mpr (by omega), rfl⟩))
  refine ⟨?_, ?_⟩
  · rw [hout]
    show List.Pairwise (· ≤ ·) _
    rw [List.pairwise_append]
    refine ⟨?_, ?_, ?_⟩
    · rw [List.pairwise_reverse, List.pairwise_map]
      apply List.Pairwise.imp_of_mem ?_ (List.pairwise_lt_range (nT + 1))
      intro i j hi hj hij
      have hj2 := List.mem_range.mp hj
      exact backT_anti Omegas Ws nT hb j (by omega) i (by omega)
    · rw [List.pairwise_map]
      apply List.Pairwise.imp_of_mem ?_ (List.pairwise_lt_range (nT + 1))
      intro i j hi hj hij
      have hj2 := List.mem_range.mp hj
      exact foreT_mono Omegas Ws nT hf j (by omega) i (by omega)
    · intro x hx y hy
      rw [List.mem_reverse] at hx
      obtain ⟨i, hi, rfl⟩ := List.mem_map.mp hx
      obtain ⟨j, hj, rfl⟩ := List.mem_map.mp hy
      have hi' : i ≤ nT := by
        have := List.mem_range.mp hi
        omega
      have hj' : j ≤ nT := by
        have := List.mem_range.mp hj
        omega
      have h1 : backT Omegas Ws i ≤ backT Omegas Ws 0 :=
        backT_anti Omegas Ws nT hb i hi' 0 (by omega)
      have h2 : foreT Omegas Ws 0 ≤ foreT Omegas Ws j :=
        foreT_mono Omegas Ws nT hf j hj' 0 (by omega)
      have h3 : backT Omegas Ws 0 = 0 := rfl
      have h4 : foreT Omegas Ws 0 = 0 := rfl
      rw [h3] at h1
      rw [h4] at h2
      linarith
  · rw [hout]
    show List.Pairwise (· ≤ ·) _
    rw [List.pairwise_append]
    refine ⟨?_, ?_, ?_⟩
    · rw [List.pairwise_reverse, List.pairwise_map]
      apply List.Pairwise.imp_of_mem ?_ (List.pairwise_lt_range (nT + 1))
      intro i j hi hj hij
      have hj2 := List.mem_range.mp hj
      exact backA_anti Omegas Ws nT hb j (by omega) i (by omega)
    · rw [List.pairwise_map]
      apply List.Pairwise.imp_of_mem ?_ (List.pairwise_lt_range (nT + 1))
      intro i j hi hj hij
      have hj2 := List.mem_range.mp hj
      exact foreA_mono Omegas Ws nT hf j (by omega) i (by omega)
    · intro x hx y hy
      rw [List.mem_reverse] at hx
      obtain ⟨i, hi, rfl⟩ := List.mem_map.mp hx
      obtain ⟨j, hj, rfl⟩ := List.mem_map.mp hy
      have hi' : i ≤ nT := by
        have := List.mem_range.mp hi
        omega
      have hj' : j ≤ nT := by
        have := List.mem_range.mp hj
        omega
      have h1 : backA Omegas Ws i ≤ backA Omegas Ws 0 :=
        backA_anti Omegas Ws nT hb i hi' 0 (by omega)
      have h2 : foreA Omegas Ws 0 ≤ foreA Omegas Ws j :=
        foreA_mono Omegas Ws nT hf j hj' 0 (by omega)
      have h3 : backA Omegas Ws 0 = 1 := rfl
      have h4 : foreA Omegas Ws 0 = 1 := rfl
      rw [h3] at h1
      rw [h4] at h2
      linarith

/-- C10: for every input, the merged lists returned by `integrateFriedmann`
each have length exactly `2*nT + 2`, and the present-day anchor appears
twice in a row at the seam: `Ts[nT] = Ts[nT+1] = 0` and
`As[nT] = As[nT+1] = 1`, because both the reversed backward series and the
forward series contribute their shared starting point. -/
theorem integrateFriedmann_length_seam (Omegas Ws : List ℝ) (nT : ℕ) :
    (integrateFriedmann Omegas Ws nT).1.length = 2 * nT + 2
    ∧ (integrateFriedmann Omegas Ws nT).2.length = 2 * nT + 2
    ∧ (integrateFriedmann Omegas Ws nT).1.getD nT 0 = 0
    ∧ (integrateFriedmann Omegas Ws nT).1.getD (nT + 1) 0 = 0
    ∧ (integrateFriedmann Omegas Ws nT).2.getD nT 0 = 1
    ∧ (integrateFriedmann Omegas Ws nT).2.getD (nT + 1) 0 = 1 := by
  rw [integrateFriedmann_closed]
  refine ⟨by simp; omega, by simp; omega, ?_, ?_, ?_, ?_⟩
  · rw [show (0 : ℝ) = backT Omegas Ws 0 from rfl]
    exact seam_left (backT Omegas Ws) (foreT Omegas Ws) nT
  · rw [show (0 : ℝ) = foreT Omegas Ws 0 from rfl]
    exact seam_right (backT Omegas Ws) (foreT Omegas Ws) nT
  · rw [show (1 : ℝ) = backA Omegas Ws 0 from rfl]
    exact seam_left (backA Omegas Ws) (foreA Omegas Ws) nT
  · rw [show (1 : ℝ) = foreA Omegas Ws 0 from rfl]
    exact seam_right (backA Omegas Ws) (foreA Omegas Ws) nT

/-- C8: `aDot` takes an unguarded square root.  When the bracketed sum `Val`
is nonnegative the call returns the well-defined real number `aDot` and never
raises; when `Val` is negative the result is not a real number, so the
real-valued embedding is only defined under the nonnegativity precondition. -/
theorem aDotChecked_spec (a : ℝ) (Omegas Ws : List ℝ) :
    (0 ≤ aDotVal a Omegas Ws → aDotChecked a Omegas Ws = some (aDot a Omegas Ws))
    ∧ (aDotVal a Omegas Ws < 0 → aDotChecked a Omegas Ws = none) := by
  constructor
  · intro h
    unfold aDotChecked
    rw [if_neg (not_lt.mpr h)]
  · intro h
    unfold aDotChecked
    rw [if_pos h]

theorem aDotVal_flat_matter_one : aDotVal 1 [1] [0] = 1 := by
  have hr : List.range (1 : ℕ) = [0] := rfl
  unfold aDotVal
  simp only [List.length_cons, List.length_nil, hr, List.foldl_cons, List.foldl_nil,
    List.getD_cons_zero, Real.one_rpow]
  norm_num

theorem aDotVal_overdense_matter : aDotVal 4 [2] [0] = -(1 / 32) := by
  have hr : List.range (1 : ℕ) = [0] := rfl
  unfold aDotVal
  simp only [List.length_cons, List.length_nil, hr, List.foldl_cons, List.foldl_nil,
    List.getD_cons_zero]
  have he : ((-3 : ℝ) * (1 + 0)) = ((-3 : ℤ) : ℝ) := by norm_num
  rw [he, Real.rpow_intCast]
  norm_num

/-- Witness for C8: a well-defined call at `a = 1`, `Omegas = [1]`, `Ws = [0]`
and a failing overdense matter-only call at `a = 4`, `Omegas = [2]`, `Ws = [0]`. -/
theorem aDotChecked_spec_witness :
    aDotChecked 1 [1] [0] = some (aDot 1 [1] [0]) ∧ aDotChecked 4 [2] [0] = none :=
  ⟨(aDotChecked_spec 1 [1] [0]).1 (by rw [aDotVal_flat_matter_one]; norm_num),
   (aDotChecked_spec 4 [2] [0]).2 (by rw [aDotVal_overdense_matter]; norm_num)⟩

theorem filter_lt_range (i n : ℕ) :
    (List.range n).filter (fun j => decide (i < j)) = List.range' (i + 1) (n - (i + 1)) := by
  induction n with
  | zero => simp
  | succ n ih =>
    rw [List.range_succ, List.filter_append, ih]
    by_cases h : i < n
    · have hfil : List.filter (fun j => decide (i < j)) [n] = [n] := by
        simp [h]
      rw [hfil, show n + 1 - (i + 1) = n - (i + 1) + 1 from by omega, List.range'_concat]
      congr 2
      omega
    · have hfil : List.filter (fun j => decide (i < j)) [n] = [] := by
        simp [h]
      rw [hfil, List.append_nil, show n + 1 - (i + 1) = n - (i + 1) from by omega]

theorem pairsList_eq_filter_product (n : ℕ) :
    pairsList n
      = ((List.range n).product (List.range n)).filter (fun p => decide (p.1 < p.2)) := by
  show pairsList n
      = ((List.range n).flatMap fun a => (List.range n).map (Prod.mk a)).filter
          (fun p => decide (p.1 < p.2))
  rw [List.filter_flatMap]
  unfold pairsList
  congr 1
  funext i
  rw [List.filter_map]
  rw [show ((fun p => decide ((p : ℕ × ℕ).1 < p.2)) ∘ Prod.mk i)
      = (fun j => decide (i < j)) from by funext j; simp]
  rw [filter_lt_range]

theorem pairsList_mem (n : ℕ) (p : ℕ × ℕ) :
    p ∈ pairsList n ↔ p.1 < p.2 ∧ p.2 < n := by
  rw [pairsList_eq_filter_product, List.mem_filter]
  cases p with
  | mk i j =>
    simp only [List.pair_mem_product, List.mem_range, decide_eq_true_eq]
    omega

theorem pairsList_nodup (n : ℕ) : (pairsList n).Nodup := by
  rw [pairsList_eq_filter_product]
  exact List.Nodup.filter _ (List.Nodup.product (List.nodup_range n) (List.nodup_range n))

theorem getD_map_of_lt {α β : Type} (f : α → β) (l : List α) (k : ℕ) (d : α) (d2 : β)
    (hk : k < l.length) :
    (l.map f).getD k d2 = f (l.getD k d) := by
  rw [List.getD_eq_getElem _ _ (by simpa using hk), List.getD_eq_getElem _ _ hk,
    List.getElem_map]

theorem equality_density (Oi Oj Wi Wj : ℝ) (hOi : 0 < Oi) (hOj : 0 < Oj)
    (hW : Wi ≠ Wj) :
    Oi * Real.exp (Real.log (Oi / Oj) / (-3 * (Wj - Wi))) ^ ((-3 : ℝ) * (1 + Wi))
      = Oj * Real.exp (Real.log (Oi / Oj) / (-3 * (Wj - Wi))) ^ ((-3 : ℝ) * (1 + Wj)) := by
  have hne : (-3 : ℝ) * (Wj - Wi) ≠ 0 := by
    intro hc
    apply hW
    rcases mul_eq_zero.mp hc with h | h
    · norm_num at h
    · linarith
  set e : ℝ := Real.log (Oi / Oj) / (-3 * (Wj - Wi)) with he
  have hexp : ∀ c : ℝ, Real.exp e ^ c = Real.exp (e * c) := fun c => by
    rw [Real.rpow_def_of_pos (Real.exp_pos e), Real.log_exp]
  rw [hexp, hexp]
  have hOiOj : 0 < Oi / Oj := div_pos hOi hOj
  have hL : Real.exp (Real.log (Oi / Oj)) = Oi / Oj := Real.exp_log hOiOj
  have hmul : e * (-3 * (Wj - Wi)) = Real.log (Oi / Oj) := by
    rw [he]
    exact div_mul_cancel₀ _ hne
  have hsplit : e * ((-3 : ℝ) * (1 + Wj)) = e * ((-3 : ℝ) * (1 + Wi)) + Real.log (Oi / Oj) := by
    have hdiff : e * ((-3 : ℝ) * (1 + Wj)) - e * ((-3 : ℝ) * (1 + Wi))
        = e * (-3 * (Wj - Wi)) := by ring
    linarith [hmul, hdiff]
  rw [hsplit, Real.exp_add, hL]
  field_simp
  ring

/-- C5: for every pair of indices `i < j` into equal-length lists with
`Omegas[i], Omegas[j] > 0` and `Ws[i] ≠ Ws[j]`, the scale factor produced by
`equalityAs` for that pair is `exp(log(Omegas[i]/Omegas[j]) / (-3*(Ws[j]-Ws[i])))`
and satisfies the density-equality equation
`Omegas[i] * a^(-3*(1+Ws[i])) = Omegas[j] * a^(-3*(1+Ws[j]))`; the
corresponding label is `Names[i] + ', ' + Names[j]`; and exactly one entry is
produced per unordered pair, in order of increasing `i` then `j` (the pair
list is exactly the lexicographically ordered filtered product). -/
theorem equalityAs_spec (Omegas Ws : List ℝ) (Names : List String)
    (i j : ℕ) (hij : i < j) (hj : j < Omegas.length)
    (hOi : 0 < Omegas.getD i 0) (hOj : 0 < Omegas.getD j 0)
    (hW : Ws.getD i 0 ≠ Ws.getD j 0) :
    (∀ k, k < (pairsList Omegas.length).length →
        (pairsList Omegas.length).getD k (0, 0) = (i, j) →
          ((equalityAs Omegas Ws Names).1.getD k 0
              = Real.exp (Real.log (Omegas.getD i 0 / Omegas.getD j 0)
                  / (-3 * (Ws.getD j 0 - Ws.getD i 0)))
            ∧ Omegas.getD i 0
                * ((equalityAs Omegas Ws Names).1.getD k 0)
                    ^ ((-3 : ℝ) * (1 + Ws.getD i 0))
              = Omegas.getD j 0
                * ((equalityAs Omegas Ws Names).1.getD k 0)
                    ^ ((-3 : ℝ) * (1 + Ws.getD j 0))
            ∧ (equalityAs Omegas Ws Names).2.getD k ""
                = Names.getD i "" ++ ", " ++ Names.getD j ""))
    ∧ (i, j) ∈ pairsList Omegas.length
    ∧ (pairsList Omegas.length).Nodup
    ∧ pairsList Omegas.length
        = ((List.range Omegas.length).product (List.range Omegas.length)).filter
            (fun p => decide (p.1 < p.2)) := by
  have hmem : (i, j) ∈ pairsList Omegas.length := (pairsList_mem _ _).mpr ⟨hij, hj⟩
  refine ⟨?_, hmem, pairsList_nodup _, pairsList_eq_filter_product _⟩
  · intro k hk hp
    have hval : (equalityAs Omegas Ws Names).1.getD k 0
        = Real.exp (Real.log (Omegas.getD i 0 / Omegas.getD j 0)
            / (-3 * (Ws.getD j 0 - Ws.getD i 0))) := by
      show ((pairsList Omegas.length).map _).getD k 0 = _
      rw [getD_map_of_lt _ _ k (0, 0) 0 hk, hp]
    have hlab : (equalityAs Omegas Ws Names).2.getD k ""
        = Names.getD i "" ++ ", " ++ Names.getD j "" := by
      show ((pairsList Omegas.length).map _).getD k "" = _
      rw [getD_map_of_lt _ _ k (0, 0) "" hk, hp]
    refine ⟨hval, ?_, hlab⟩
    rw [hval]
    exact equality_density _ _ _ _ hOi hOj hW

/-- Witness for C5 at `Omegas = [2, 1]`, `Ws = [0, 1]`, `Names = ["M", "R"]`,
pair `(0, 1)`. -/
theorem equalityAs_spec_witness :
    (∀ k, k < (pairsList (List.length ([2, 1] : List ℝ))).length →
        (pairsList (List.length ([2, 1] : List ℝ))).getD k (0, 0) = (0, 1) →
          ((equalityAs [2, 1] [0, 1] ["M", "R"]).1.getD k 0
              = Real.exp (Real.log (List.getD ([2, 1] : List ℝ) 0 0
                    / List.getD ([2, 1] : List ℝ) 1 0)
                  / (-3 * (List.getD ([0, 1] : List ℝ) 1 0
                      - List.getD ([0, 1] : List ℝ) 0 0)))
            ∧ List.getD ([2, 1] : List ℝ) 0 0
                * ((equalityAs [2, 1] [0, 1] ["M", "R"]).1.getD k 0)
                    ^ ((-3 : ℝ) * (1 + List.getD ([0, 1] : List ℝ) 0 0))
              = List.getD ([2, 1] : List ℝ) 1 0
                * ((equalityAs [2, 1] [0, 1] ["M", "R"]).1.getD k 0)
                    ^ ((-3 : ℝ) * (1 + List.getD ([0, 1] : List ℝ) 1 0))
            ∧ (equalityAs [2, 1] [0, 1] ["M", "R"]).2.getD k ""
                = List.getD (["M", "R"] : List String) 0 "" ++ ", "
                  ++ List.getD (["M", "R"] : List String) 1 ""))
    ∧ (0, 1) ∈ pairsList (List.length ([2, 1] : List ℝ))
    ∧ (pairsList (List.length ([2, 1] : List ℝ))).Nodup
    ∧ pairsList (List.length ([2, 1] : List ℝ))
        = ((List.range (List.length ([2, 1] : List ℝ))).product
              (List.range (List.length ([2, 1] : List ℝ)))).filter
            (fun p => decide (p.1 < p.2)) :=
  equalityAs_spec [2, 1] [0, 1] ["M", "R"] 0 1 (by decide)
    (by norm_num)
    (by norm_num [List.getD_cons_zero])
    (by norm_num [List.getD_cons_succ, List.getD_cons_zero])
    (by norm_num [List.getD_cons_succ, List.getD_cons_zero])

theorem backA_deSitter_one : backA [1] [-1] 1 = 0.99 := by
  simp [backA, aDot_deSitter]
  norm_num

theorem foreA_deSitter_one : foreA [1] [-1] 1 = 1.01 := by
  simp [foreA, aDot_deSitter]
  norm_num

theorem integrate_deSitter_As : (integrateFriedmann [1] [-1] 1).2 = [0.99, 1, 1, 1.01] := by
  rw [integrateFriedmann_closed]
  have hr2 : List.range 2 = [0, 1] := rfl
  rw [hr2]
  simp only [List.map_cons, List.map_nil, List.reverse_cons, List.reverse_nil,
    List.nil_append, List.cons_append, List.singleton_append]
  rw [backA_deSitter_one, foreA_deSitter_one,
    show backA [1] [-1] 0 = (1 : ℝ) from rfl, show foreA [1] [-1] 0 = (1 : ℝ) from rfl]

/-- Witness for C6 at `Omegas = [1]`, `Ws = [-1]`, `nT = 1`. -/
theorem integrateFriedmann_merge_sorted_witness :
    (integrateFriedmann [1] [-1] 1).1
        = (backwardLoop [1] [-1] 1 ([1], [0])).2.reverse
          ++ (forwardLoop [1] [-1] 1 ([1], [0])).2
    ∧ (integrateFriedmann [1] [-1] 1).2
        = (backwardLoop [1] [-1] 1 ([1], [0])).1.reverse
          ++ (forwardLoop [1] [-1] 1 ([1], [0])).1
    ∧ List.Sorted (· ≤ ·) (integrateFriedmann [1] [-1] 1).1
    ∧ List.Sorted (· ≤ ·) (integrateFriedmann [1] [-1] 1).2 := by
  have h := integrateFriedmann_merge_sorted [1] [-1] 1
  have hd : ∀ x ∈ (integrateFriedmann [1] [-1] 1).2, 0 < aDot x [1] [-1] := by
    intro x hx
    rw [integrate_deSitter_As] at hx
    rw [aDot_deSitter]
    rcases List.mem_cons.mp hx with h2 | hx
    · rw [h2]; norm_num
    rcases List.mem_cons.mp hx with h2 | hx
    · rw [h2]; norm_num
    rcases List.mem_cons.mp hx with h2 | hx
    · rw [h2]; norm_num
    rcases List.mem_cons.mp hx with h2 | hx
    · rw [h2]; norm_num
    exact absurd hx (List.not_mem_nil x)
  exact ⟨h.1, h.2.1, (h.2.2 hd).1, (h.2.2 hd).2⟩

end IntegratedFriedmann
